import Mathlib

/-!
Verification development for the staking indexer of `kreate-index`
(`src/framework/chain/staking.ts`).

The indexer keeps a bidirectional registry (credential hash to reward
address and back), a debounced reload scheduler (a selective-reload set,
a removal set and a full-reload flag), a single-flight reload executor
(`doReload`), a per-block event extractor (`afterBlock`) and a recovery
path (`reboot`).  Everything below is a shallow embedding of that file:
JavaScript `Map`s become association lists with insert-or-update-in-place
semantics, JavaScript `Set`s become duplicate-free lists in insertion
order, and the asynchronous executor body becomes a pure function from
the pre-state plus the fetched external data to its post-state and its
observable effects.
-/

namespace Staking

/-- Credentials (`StakingHash = KeyHash | ScriptHash`), reward addresses,
pool ids and transaction ids are opaque strings in the source. -/
abbrev StakingHash := String

abbrev RewardAddress := String

abbrev PoolId := String

abbrev TxHash := String

/-- `Lovelace` is a `bigint` in the source; embedded as `Int`. -/
abbrev Lovelace := Int

abbrev Slot := Nat

/-- `StakingType = "Key" | "Script"`. -/
inductive StakingType
  | Key
  | Script
deriving DecidableEq, Repr

/-- The four action kinds of `ChainStakingActionTypes`. -/
inductive ChainStakingAction
  | withdraw
  | register
  | delegate
  | deregister
deriving DecidableEq, Repr

/-- `ChainStakingActionWithPayload`: the action kind with its payload
(discriminated union in the source). -/
inductive ChainStakingActionWithPayload
  | delegate (poolId : PoolId)
  | register
  | deregister
  | withdraw (amount : Lovelace)
deriving DecidableEq, Repr

/-- Projection from an action-with-payload to its bare kind. -/
def actionKind : ChainStakingActionWithPayload → ChainStakingAction
  | .delegate _ => .delegate
  | .register => .register
  | .deregister => .deregister
  | .withdraw _ => .withdraw

/-- `ChainStaking`: one action log record
`{hash, slot, txId} & ChainStakingActionWithPayload`. -/
structure ChainStaking where
  hash : StakingHash
  slot : Slot
  txId : TxHash
  action : ChainStakingActionWithPayload
deriving DecidableEq, Repr

/-- `ChainStakingState`: one materialized snapshot row of
`chain.staking_state`. -/
structure ChainStakingState where
  hash : StakingHash
  address : RewardAddress
  poolId : Option PoolId
  rewards : Lovelace
  reloadedSlot : Slot
deriving DecidableEq, Repr

/-- One entry of the `delegationsAndRewards` response: an optional
delegate pool and an optional reward balance. -/
structure DelegRewards where
  delegate : Option PoolId
  rewards : Option Lovelace
deriving DecidableEq, Repr

/-- `ledgerTip()` result: `none` is the `"origin"` sentinel, otherwise a
slot and a header hash. -/
abbrev Tip := Option (Slot × String)

/-- Modelled from the spec: `slotFrom` lives in
`src/framework/chain/conversions.ts`, which is not part of the provided
sources.  Per the spec, a snapshot row is tagged with the tip's slot; the
`"origin"` sentinel carries no slot and is mapped to `0`.  No claim below
depends on the particular value chosen for the sentinel. -/
def slotFrom : Tip → Slot
  | none => 0
  | some p => p.1

/-- JavaScript `Map.prototype.get` on an insertion-ordered association
list. -/
def mapGet {α β : Type} [DecidableEq α] (m : List (α × β)) (k : α) : Option β :=
  (m.find? (fun p => decide (p.1 = k))).map (fun p => p.2)

/-- JavaScript `Map.prototype.has`. -/
def mapHas {α β : Type} [DecidableEq α] (m : List (α × β)) (k : α) : Bool :=
  m.any (fun p => decide (p.1 = k))

/-- JavaScript `Map.prototype.set`: update the value in place when the
key is present (keeping insertion order), otherwise append. -/
def mapSet {α β : Type} [DecidableEq α] (m : List (α × β)) (k : α) (v : β) :
    List (α × β) :=
  if mapHas m k then m.map (fun p => if p.1 = k then (k, v) else p)
  else m ++ [(k, v)]

/-- JavaScript `Map.prototype.delete` (result map only). -/
def mapDelete {α β : Type} [DecidableEq α] (m : List (α × β)) (k : α) :
    List (α × β) :=
  m.filter (fun p => decide (p.1 ≠ k))

/-- JavaScript `Set.prototype.add` on a duplicate-free insertion-ordered
list. -/
def setAdd {α : Type} [DecidableEq α] (s : List α) (x : α) : List α :=
  if x ∈ s then s else s ++ [x]

/-- The mutable closure state of `createStakingIndexer`: the two pending
sets, the bidirectional registry, and the three boolean flags. -/
structure StakingState where
  toReload : List StakingHash
  toRemove : List StakingHash
  registry : List (StakingHash × RewardAddress)
  revRegistry : List (RewardAddress × StakingHash)
  fullReload : Bool
  willReloadDynamically : Bool
  isActive : Bool
deriving DecidableEq, Repr

/-- The state right after `createStakingIndexer` runs: empty maps and
sets, all flags `false`. -/
def initState : StakingState :=
  { toReload := []
    toRemove := []
    registry := []
    revRegistry := []
    fullReload := false
    willReloadDynamically := false
    isActive := false }

/-- `watch(hash, type)`: derive the reward address and insert both
directions.  The external `lucid.utils.credentialToRewardAddress` is the
`derive` parameter. -/
def watch (derive : StakingType → StakingHash → RewardAddress)
    (s : StakingState) (hash : StakingHash) (type : StakingType) : StakingState :=
  let address := derive type hash
  { s with
    registry := mapSet s.registry hash address
    revRegistry := mapSet s.revRegistry address hash }

/-- `batchWatch(hashes, type)`: `watch` every hash of the list, one
credential kind for the whole batch. -/
def batchWatch (derive : StakingType → StakingHash → RewardAddress)
    (s : StakingState) (hashes : List StakingHash) (type : StakingType) :
    StakingState :=
  hashes.foldl (fun st h => watch derive st h type) s

/-- `unwatch(hash)`: when the hash is in the forward registry, mark it
for deferred removal and report `true`; otherwise report `false` and
change nothing. -/
def unwatch (s : StakingState) (hash : StakingHash) : Bool × StakingState :=
  if mapHas s.registry hash then
    (true, { s with toRemove := setAdd s.toRemove hash })
  else
    (false, s)

/-- `fromHash(hash)`: forward registry lookup. -/
def fromHash (s : StakingState) (hash : StakingHash) : Option RewardAddress :=
  mapGet s.registry hash

/-- `fromAddress(address)`: reverse registry lookup. -/
def fromAddress (s : StakingState) (address : RewardAddress) : Option StakingHash :=
  mapGet s.revRegistry address

/-- `isHashWatched(hash)`. -/
def isHashWatched (s : StakingState) (hash : StakingHash) : Bool :=
  mapHas s.registry hash

/-- `isAddressWatched(address)`. -/
def isAddressWatched (s : StakingState) (address : RewardAddress) : Bool :=
  mapHas s.revRegistry address

/-- `reload(hashes)`: early-return when the full-reload flag is set;
`null` sets the flag and always fires the debounce; a concrete list is
merged into the selective set and fires the debounce only in dynamic
mode.  The returned `Bool` records whether `reloadDebounce()` was
invoked. -/
def reload (s : StakingState) (hashes : Option (List StakingHash)) :
    StakingState × Bool :=
  if s.fullReload then (s, false)
  else
    match hashes with
    | none => ({ s with fullReload := true }, true)
    | some hs =>
        ({ s with toReload := hs.foldl setAdd s.toReload }, s.willReloadDynamically)

/-- `clear()`: reset both registry maps, both pending sets and the
full-reload flag.  The source body only pauses/resumes the executor
queue around these resets and performs no SQL statement, so the
embedding is a pure state function. -/
def clearState (s : StakingState) : StakingState :=
  { s with
    registry := []
    revRegistry := []
    toReload := []
    toRemove := []
    fullReload := false }

/-- One iteration of the `for (const [hash, entry] of Object.entries(response))`
loop of `doReload`: build the snapshot row from the forward registry
(empty address when unresolved), then, when the hash is in the removal
set, delete it from both registry maps. -/
def reloadStep (tip : Tip) (acc : List ChainStakingState × StakingState)
    (p : StakingHash × DelegRewards) : List ChainStakingState × StakingState :=
  let st := acc.2
  let hash := p.1
  let address := (mapGet st.registry hash).getD ""
  let row : ChainStakingState :=
    { hash := hash
      address := address
      poolId := p.2.delegate
      rewards := (p.2.rewards).getD 0
      reloadedSlot := slotFrom tip }
  let st1 :=
    if hash ∈ st.toRemove then
      { st with
        registry := mapDelete st.registry hash
        revRegistry := mapDelete st.revRegistry address }
    else st
  (acc.1 ++ [row], st1)

/-- The observable outcome of one `doReload` execution: the post-state,
whether the inactive warning was logged, the batch sent to the external
state source (`none` when no fetch happened), the rows handed to the
batch upsert (`[]` when no write happened), and the `onReloaded`
invocation (`none` when the callback was not invoked). -/
structure ReloadOutcome where
  state : StakingState
  warnedInactive : Bool
  fetched : Option (List RewardAddress)
  upsert : List ChainStakingState
  callback : Option (List RewardAddress × Bool)
deriving DecidableEq, Repr

/-- The selective batch: for every hash of `toReload`, its forward
address; entries whose address is missing or empty (falsy) are skipped
with a warning. -/
def selectiveBatch (s : StakingState) : List RewardAddress :=
  s.toReload.filterMap (fun h =>
    match mapGet s.registry h with
    | some a => if a = "" then none else some a
    | none => none)

/-- The tail of `doReload` once the batch is decided: no fetch on an
empty batch; otherwise fold `reloadStep` over the response and report
batch, rows and callback.  The callback's boolean is the `fullReload`
variable as read at callback time (after the snapshot phase reset it),
exactly as in the source. -/
def runBatch (batch : List RewardAddress) (s1 : StakingState) (tip : Tip)
    (r : List (StakingHash × DelegRewards)) : ReloadOutcome :=
  if batch.isEmpty then
    { state := s1, warnedInactive := false, fetched := none, upsert := [],
      callback := none }
  else
    let res := r.foldl (reloadStep tip) ([], s1)
    { state := res.2
      warnedInactive := false
      fetched := some batch
      upsert := res.1
      callback := some (batch, res.2.fullReload) }

/-- `doReload()`, the single-flight executor body, as a function of the
pre-state and of the external fetch results (`tip`, `r`).  When
inactive: warn, clear the selective set, return.  Otherwise snapshot and
clear the pending work (full reload takes every registry value;
otherwise the selective batch), then run the batch. -/
def doReload (s : StakingState) (tip : Tip)
    (r : List (StakingHash × DelegRewards)) : ReloadOutcome :=
  if s.isActive = false then
    { state := { s with toReload := [] }, warnedInactive := true,
      fetched := none, upsert := [], callback := none }
  else if s.fullReload then
    runBatch (s.registry.map (fun p => p.2))
      { s with fullReload := false, toReload := [] } tip r
  else if s.toReload.isEmpty then
    { state := s, warnedInactive := false, fetched := none, upsert := [],
      callback := none }
  else
    runBatch (selectiveBatch s) { s with toReload := [] } tip r

/-- An Ogmios certificate, restricted to the three shapes `afterBlock`
inspects; every other certificate is `otherCert`. -/
inductive Certificate
  | stakeKeyRegistration (hash : StakingHash)
  | stakeDelegation (delegator : StakingHash) (delegatee : PoolId)
  | stakeKeyDeregistration (hash : StakingHash)
  | otherCert
deriving DecidableEq, Repr

/-- One transaction: id, withdrawals (an object keyed by reward address,
embedded in iteration order) and certificates. -/
structure Tx where
  id : TxHash
  withdrawals : List (RewardAddress × Lovelace)
  certificates : List Certificate
deriving DecidableEq, Repr

/-- One block: header slot and transaction body. -/
structure Block where
  slot : Slot
  body : List Tx
deriving DecidableEq, Repr

/-- The withdrawals loop of `afterBlock`: emit a `withdraw` action for
every entry whose address resolves, through the reverse registry, to a
truthy hash (`hash && events.push(...)` skips `undefined` and the empty
string). -/
def withdrawActions (s : StakingState) (slot : Slot) (txId : TxHash)
    (ws : List (RewardAddress × Lovelace)) : List ChainStaking :=
  ws.foldl (fun acc w =>
    match fromAddress s w.1 with
    | some h =>
        if h = "" then acc
        else acc ++ [{ hash := h, slot := slot, txId := txId,
                       action := .withdraw w.2 }]
    | none => acc) []

/-- The certificates loop body of `afterBlock`: registration and
delegation of a watched credential emit their action; deregistration of
a watched credential emits its action and immediately `unwatch`es the
credential; everything else is ignored. -/
def processCert (slot : Slot) (txId : TxHash)
    (acc : StakingState × List ChainStaking) (cert : Certificate) :
    StakingState × List ChainStaking :=
  match cert with
  | .stakeKeyRegistration h =>
      if isHashWatched acc.1 h then
        (acc.1, acc.2 ++ [{ hash := h, slot := slot, txId := txId,
                            action := .register }])
      else acc
  | .stakeDelegation h pool =>
      if isHashWatched acc.1 h then
        (acc.1, acc.2 ++ [{ hash := h, slot := slot, txId := txId,
                            action := .delegate pool }])
      else acc
  | .stakeKeyDeregistration h =>
      if isHashWatched acc.1 h then
        ((unwatch acc.1 h).2,
         acc.2 ++ [{ hash := h, slot := slot, txId := txId,
                     action := .deregister }])
      else acc
  | .otherCert => acc

/-- One transaction of the `afterBlock` loop: withdrawals first, then
certificates. -/
def processTx (acc : StakingState × List ChainStaking) (slot : Slot) (tx : Tx) :
    StakingState × List ChainStaking :=
  let acc1 := (acc.1, acc.2 ++ withdrawActions acc.1 slot tx.id tx.withdrawals)
  tx.certificates.foldl (processCert slot tx.id) acc1

/-- The event-extraction phase of `afterBlock` over a whole block. -/
def extractBlock (s : StakingState) (b : Block) :
    StakingState × List ChainStaking :=
  b.body.foldl (fun acc tx => processTx acc b.slot tx) (s, [])

/-- The observable side effects of `afterBlock`, in execution order. -/
inductive BlockEffect
  | storeBlockE
  | appendLogE (rows : List ChainStaking)
  | reloadE (hashes : List StakingHash)
deriving DecidableEq, Repr

/-- `afterBlock`: extract the events; when at least one was produced,
invoke `storeBlock` first (when supplied), append all events to the log
in one batch, and hand the affected hashes to `reload` only when in
sync. -/
def afterBlock (s : StakingState) (b : Block) (inSync : Bool)
    (hasStoreBlock : Bool) : StakingState × List BlockEffect :=
  let ext := extractBlock s b
  if ext.2.isEmpty then (ext.1, [])
  else
    let hashes := ext.2.map (fun e => e.hash)
    let s2 := if inSync then (reload ext.1 (some hashes)).1 else ext.1
    (s2,
      (if hasStoreBlock then [BlockEffect.storeBlockE] else []) ++
        [BlockEffect.appendLogE ext.2] ++
        (if inSync then [BlockEffect.reloadE hashes] else []))

/-- The most recent logged action kind for a hash, by insertion order
(`ORDER BY hash, id DESC` with `DISTINCT ON (hash)` picks the row of
greatest `id` per hash; the log list is in ascending `id` order). -/
def lastAction (log : List ChainStaking) (h : StakingHash) :
    Option ChainStakingAction :=
  ((log.filter (fun e => decide (e.hash = h))).map (fun e => actionKind e.action)).getLast?

/-- The recovery query of `reboot`: every distinct hash of the log whose
most recent action is not `deregister`.  (The SQL imposes no ordering on
the outer query; only membership matters to the claims.) -/
def activeHashes (log : List ChainStaking) : List StakingHash :=
  ((log.map (fun e => e.hash)).dedup).filter
    (fun h => decide (lastAction log h ≠ some ChainStakingAction.deregister))

/-- `reboot()`: clear all in-memory state, query the log for
still-active hashes, and batch-watch them with kind `Script`. -/
def reboot (derive : StakingType → StakingHash → RewardAddress)
    (s : StakingState) (log : List ChainStaking) : StakingState :=
  batchWatch derive (clearState s) (activeHashes log) StakingType.Script

/-- One registry-facing operation, for stating the registry invariant
over arbitrary call sequences. -/
inductive RegOp
  | watchOp (h : StakingHash) (t : StakingType)
  | batchWatchOp (hs : List StakingHash) (t : StakingType)
  | unwatchOp (h : StakingHash)
deriving DecidableEq, Repr

/-- Apply one registry operation. -/
def applyOp (derive : StakingType → StakingHash → RewardAddress)
    (s : StakingState) : RegOp → StakingState
  | .watchOp h t => watch derive s h t
  | .batchWatchOp hs t => batchWatch derive s hs t
  | .unwatchOp h => (unwatch s h).2

/-- Apply a sequence of registry operations. -/
def applyOps (derive : StakingType → StakingHash → RewardAddress)
    (s : StakingState) (ops : List RegOp) : StakingState :=
  ops.foldl (applyOp derive) s

/-- The operation uses only credential kind `t0` (an `unwatch` uses
none). -/
def opUsesKind (t0 : StakingType) : RegOp → Prop
  | .watchOp _ t => t = t0
  | .batchWatchOp _ t => t = t0
  | .unwatchOp _ => True

instance (t0 : StakingType) (op : RegOp) : Decidable (opUsesKind t0 op) := by
  cases op <;> simp only [opUsesKind] <;> infer_instance

/-- The two registry maps are exact inverses over the same key set: each
direction round-trips through `mapGet`, both key lists are
duplicate-free, and the maps have the same number of entries. -/
def InverseMaps (s : StakingState) : Prop :=
  (∀ p ∈ s.registry, mapGet s.revRegistry p.2 = some p.1) ∧
  (∀ q ∈ s.revRegistry, mapGet s.registry q.2 = some q.1) ∧
  (s.registry.map (fun p => p.1)).Nodup ∧
  (s.revRegistry.map (fun q => q.1)).Nodup ∧
  s.registry.length = s.revRegistry.length

instance (s : StakingState) : Decidable (InverseMaps s) := by
  unfold InverseMaps
  infer_instance

/-- Internal invariant implying `InverseMaps` when all watches share one
kind `t0` whose derivation is injective: the reverse map is the entry-wise
swap of the forward map, every forward value is the derivation of its
key, and forward keys are duplicate-free. -/
def RegistryMirror (derive : StakingType → StakingHash → RewardAddress)
    (t0 : StakingType) (s : StakingState) : Prop :=
  s.revRegistry = s.registry.map (fun p => (p.2, p.1)) ∧
  (∀ p ∈ s.registry, p.2 = derive t0 p.1) ∧
  (s.registry.map (fun p => p.1)).Nodup

/-- A trivially injective derivation used to instantiate witnesses. -/
def idDerive : StakingType → StakingHash → RewardAddress := fun _ h => h

/-- A kind-distinguishing derivation: real Cardano reward addresses embed
the credential kind in the header byte, so a key credential and a script
credential with the same hash derive different addresses. -/
def ksDerive : StakingType → StakingHash → RewardAddress
  | StakingType.Key, h => "K" ++ h
  | StakingType.Script, h => "S" ++ h

/-- Fixture for C2: an active indexer about to run a full reload while
credential `c` sits in the removal set. -/
def cexRemState : StakingState :=
  { toReload := []
    toRemove := ["c"]
    registry := [("c", "A")]
    revRegistry := [("A", "c")]
    fullReload := true
    willReloadDynamically := false
    isActive := true }

/-- Fixture for C2: a response carrying an entry for `c`. -/
def cexResp : List (StakingHash × DelegRewards) :=
  [("c", { delegate := none, rewards := some 5 })]

/-- Fixture for C3: an active indexer with the full-reload flag set. -/
def c3State : StakingState :=
  { toReload := []
    toRemove := []
    registry := [("c", "A")]
    revRegistry := [("A", "c")]
    fullReload := true
    willReloadDynamically := false
    isActive := true }

/-- Fixture for C3: a response for the single watched credential. -/
def c3Resp : List (StakingHash × DelegRewards) :=
  [("c", { delegate := none, rewards := none })]

/-- Fixture for C4: a stopped indexer with pending work of both kinds. -/
def c4State : StakingState :=
  { toReload := ["x"]
    toRemove := []
    registry := []
    revRegistry := []
    fullReload := true
    willReloadDynamically := false
    isActive := false }

/-- Fixture for C5: an active indexer watching credential `h`. -/
def c5State : StakingState :=
  { toReload := []
    toRemove := []
    registry := [("h", "A")]
    revRegistry := [("A", "h")]
    fullReload := false
    willReloadDynamically := true
    isActive := true }

/-- Fixture for C5: the same indexer after `unwatch "h"` and a
`reload(null)` request. -/
def c5RemState : StakingState :=
  { toReload := []
    toRemove := ["h"]
    registry := [("h", "A")]
    revRegistry := [("A", "h")]
    fullReload := true
    willReloadDynamically := true
    isActive := true }

/-- Fixture for C5: a response carrying an entry for `h`. -/
def c5Resp : List (StakingHash × DelegRewards) :=
  [("h", { delegate := some "P", rewards := some 3 })]

/-- Fixture for C6: an active indexer with the full-reload flag set. -/
def c6State : StakingState :=
  { toReload := []
    toRemove := []
    registry := [("h", "A")]
    revRegistry := [("A", "h")]
    fullReload := true
    willReloadDynamically := false
    isActive := true }

/-- Fixture for C6: the same indexer before any reload request. -/
def c6BaseState : StakingState :=
  { toReload := []
    toRemove := []
    registry := [("h", "A")]
    revRegistry := [("A", "h")]
    fullReload := false
    willReloadDynamically := false
    isActive := true }

/-- Fixture for C7: an in-sync indexer watching `H1` at address `A1`. -/
def c7State : StakingState :=
  { toReload := []
    toRemove := []
    registry := [("H1", "A1")]
    revRegistry := [("A1", "H1")]
    fullReload := false
    willReloadDynamically := true
    isActive := true }

/-- Fixture for C7: a block at slot 1000 whose only transaction carries a
stake-registration certificate for `H1`. -/
def c7Block : Block :=
  { slot := 1000
    body := [{ id := "tx0", withdrawals := [],
               certificates := [Certificate.stakeKeyRegistration "H1"] }] }

/-- Fixture for C7: the single action the extractor emits for `c7Block`. -/
def c7Event : ChainStaking :=
  { hash := "H1", slot := 1000, txId := "tx0",
    action := ChainStakingActionWithPayload.register }

/-- Fixture for C8: an indexer watching `h` at address `A`. -/
def c8State : StakingState :=
  { toReload := []
    toRemove := []
    registry := [("h", "A")]
    revRegistry := [("A", "h")]
    fullReload := false
    willReloadDynamically := false
    isActive := true }

/-- Specification of the extractor's withdrawal rule, transcribed from
the claim: a withdrawal entry emits a `withdraw` action carrying the
withdrawn amount exactly when its reward address resolves, through the
reverse registry, to a (truthy) watched credential; otherwise nothing. -/
def specWithdrawAction (s : StakingState) (slot : Slot) (txId : TxHash)
    (w : RewardAddress × Lovelace) : Option ChainStaking :=
  match fromAddress s w.1 with
  | some h =>
      if h = "" then none
      else some ⟨h, slot, txId, ChainStakingActionWithPayload.withdraw w.2⟩
  | none => none

/-- Specification of the extractor's certificate rule, transcribed from
the claim: registration, delegation (carrying the pool) and
deregistration of a watched credential emit their action; certificates
of unwatched credentials and unrelated certificates emit nothing. -/
def specCertAction (s : StakingState) (slot : Slot) (txId : TxHash) :
    Certificate → Option ChainStaking
  | .stakeKeyRegistration h =>
      if isHashWatched s h then
        some ⟨h, slot, txId, ChainStakingActionWithPayload.register⟩
      else none
  | .stakeDelegation h pool =>
      if isHashWatched s h then
        some ⟨h, slot, txId, ChainStakingActionWithPayload.delegate pool⟩
      else none
  | .stakeKeyDeregistration h =>
      if isHashWatched s h then
        some ⟨h, slot, txId, ChainStakingActionWithPayload.deregister⟩
      else none
  | .otherCert => none

/-- The credential a certificate unwatches, per the claim: exactly a
deregistration of a watched credential. -/
def specCertDereg (s : StakingState) : Certificate → Option StakingHash
  | .stakeKeyDeregistration h => if isHashWatched s h then some h else none
  | _ => none

/-- All actions one transaction contributes: withdrawals first, then
certificates, each filtered by the per-entry rules above. -/
def specTxActions (s : StakingState) (slot : Slot) (tx : Tx) :
    List ChainStaking :=
  tx.withdrawals.filterMap (specWithdrawAction s slot tx.id) ++
    tx.certificates.filterMap (specCertAction s slot tx.id)

/-- All actions of a list of transactions, in order. -/
def specTxsActions (s : StakingState) (slot : Slot) (txs : List Tx) :
    List ChainStaking :=
  (txs.map (specTxActions s slot)).flatten

/-- All credentials a list of transactions deregisters, in order. -/
def specTxsDeregs (s : StakingState) (txs : List Tx) : List StakingHash :=
  (txs.map (fun tx => tx.certificates.filterMap (specCertDereg s))).flatten

/-- All actions of a block, in transaction order. -/
def specBlockActions (s : StakingState) (b : Block) : List ChainStaking :=
  specTxsActions s b.slot b.body

/-- All credentials a block deregisters (and hence unwatches), in
order. -/
def specBlockDeregs (s : StakingState) (b : Block) : List StakingHash :=
  specTxsDeregs s b.body

/-- Fixture for C8: a mixed block — two transactions; a resolving and a
non-resolving withdrawal; a watched deregistration followed, in the next
transaction, by a registration of the same credential; an unwatched
delegation; an unrelated certificate. -/
def c8MixedBlock : Block :=
  ⟨9, [⟨"t1", [("A", 7), ("B", 1)],
        [Certificate.stakeKeyDeregistration "h",
         Certificate.stakeDelegation "z" "P"]⟩,
       ⟨"t2", [],
        [Certificate.stakeKeyRegistration "h", Certificate.otherCert]⟩]⟩

/-- Fixture for C9: a log where credential `X` ends on `withdraw` and
credential `Y` ends on `deregister`. -/
def c9Log : List ChainStaking :=
  [{ hash := "X", slot := 1, txId := "t1",
     action := ChainStakingActionWithPayload.register },
   { hash := "X", slot := 2, txId := "t2",
     action := ChainStakingActionWithPayload.delegate "P" },
   { hash := "X", slot := 3, txId := "t3",
     action := ChainStakingActionWithPayload.withdraw 2 },
   { hash := "Y", slot := 4, txId := "t4",
     action := ChainStakingActionWithPayload.register },
   { hash := "Y", slot := 5, txId := "t5",
     action := ChainStakingActionWithPayload.deregister }]

section MapLemmas

variable {α β : Type} [DecidableEq α]

theorem mapGet_nil (k : α) : mapGet ([] : List (α × β)) k = none := rfl

theorem mapGet_cons (p : α × β) (m : List (α × β)) (k : α) :
    mapGet (p :: m) k = if p.1 = k then some p.2 else mapGet m k := by
  by_cases h : p.1 = k <;> simp [mapGet, List.find?_cons, h]

theorem mapHas_cons (p : α × β) (m : List (α × β)) (k : α) :
    mapHas (p :: m) k = (decide (p.1 = k) || mapHas m k) := by
  simp [mapHas]

theorem mapHas_eq_isSome (m : List (α × β)) (k : α) :
    mapHas m k = (mapGet m k).isSome := by
  induction m with
  | nil => rfl
  | cons p m ih =>
      by_cases h : p.1 = k <;> simp [mapHas_cons, mapGet_cons, h, ih]

theorem mapGet_eq_none_iff (m : List (α × β)) (k : α) :
    mapGet m k = none ↔ ∀ p ∈ m, p.1 ≠ k := by
  induction m with
  | nil => simp [mapGet_nil]
  | cons p m ih =>
      by_cases h : p.1 = k <;> simp [mapGet_cons, h, ih]

theorem mapGet_mapDelete_self (m : List (α × β)) (k : α) :
    mapGet (mapDelete m k) k = none := by
  rw [mapGet_eq_none_iff]
  intro p hp
  have := List.of_mem_filter hp
  simpa using this

theorem mapDelete_cons_self (p : α × β) (m : List (α × β)) (k : α)
    (hp : p.1 = k) : mapDelete (p :: m) k = mapDelete m k := by
  simp [mapDelete, hp]

theorem mapDelete_cons_other (p : α × β) (m : List (α × β)) (k : α)
    (hp : p.1 ≠ k) : mapDelete (p :: m) k = p :: mapDelete m k := by
  simp [mapDelete, hp]

theorem mapGet_mapDelete_other (m : List (α × β)) (k c : α) (hkc : k ≠ c) :
    mapGet (mapDelete m k) c = mapGet m c := by
  induction m with
  | nil => rfl
  | cons p m ih =>
      by_cases hp : p.1 = k
      · have hpc : p.1 ≠ c := by rw [hp]; exact hkc
        rw [mapDelete_cons_self p m k hp, ih, mapGet_cons, if_neg hpc]
      · rw [mapDelete_cons_other p m k hp, mapGet_cons, mapGet_cons, ih]

theorem mapGet_mapDelete_none (m : List (α × β)) (k c : α)
    (h : mapGet m c = none) : mapGet (mapDelete m k) c = none := by
  rw [mapGet_eq_none_iff] at h ⊢
  intro p hp
  exact h p (List.mem_of_mem_filter hp)

theorem mapGet_append_right (m l : List (α × β)) (k : α)
    (h : mapGet m k = none) : mapGet (m ++ l) k = mapGet l k := by
  induction m with
  | nil => rfl
  | cons p m ih =>
      rw [mapGet_cons] at h
      by_cases hp : p.1 = k
      · simp [hp] at h
      · simp only [hp, if_false] at h
        simpa [mapGet_cons, hp] using ih h

theorem mapGet_map_upd_self (m : List (α × β)) (k : α) (v : β)
    (h : mapHas m k = true) :
    mapGet (m.map (fun p => if p.1 = k then (k, v) else p)) k = some v := by
  induction m with
  | nil => simp [mapHas] at h
  | cons p m ih =>
      by_cases hp : p.1 = k
      · simp [mapGet_cons, hp]
      · rw [mapHas_cons] at h
        have h3 : mapHas m k = true := by simpa [hp] using h
        simp [mapGet_cons, hp, ih h3]

theorem mapGet_map_upd_other (m : List (α × β)) (k c : α) (v : β)
    (hkc : k ≠ c) :
    mapGet (m.map (fun p => if p.1 = k then (k, v) else p)) c = mapGet m c := by
  induction m with
  | nil => rfl
  | cons p m ih =>
      by_cases hp : p.1 = k
      · have hpc : p.1 ≠ c := by rw [hp]; exact hkc
        simp [mapGet_cons, hp, hkc, hpc, ih]
      · simp [mapGet_cons, hp, ih]

theorem mapGet_append_left (m l : List (α × β)) (k : α) (w : β)
    (h : mapGet m k = some w) : mapGet (m ++ l) k = some w := by
  induction m with
  | nil => simp [mapGet_nil] at h
  | cons p m ih =>
      rw [mapGet_cons] at h
      by_cases hp : p.1 = k
      · rw [if_pos hp] at h
        simpa [mapGet_cons, hp] using h
      · rw [if_neg hp] at h
        simpa [mapGet_cons, hp] using ih h

theorem mapGet_none_of_not_has (m : List (α × β)) (k : α)
    (h : mapHas m k = false) : mapGet m k = none := by
  cases hg : mapGet m k with
  | none => rfl
  | some w =>
      rw [mapHas_eq_isSome, hg] at h
      simp at h

theorem mapGet_mapSet_self (m : List (α × β)) (k : α) (v : β) :
    mapGet (mapSet m k v) k = some v := by
  unfold mapSet
  by_cases h : mapHas m k
  · rw [if_pos h]
    exact mapGet_map_upd_self m k v h
  · rw [if_neg h]
    have hn : mapGet m k = none :=
      mapGet_none_of_not_has m k (Bool.eq_false_iff.mpr h)
    rw [mapGet_append_right m _ k hn, mapGet_cons]
    simp

theorem mapGet_mapSet_other (m : List (α × β)) (k c : α) (v : β)
    (hkc : k ≠ c) : mapGet (mapSet m k v) c = mapGet m c := by
  unfold mapSet
  by_cases h : mapHas m k
  · rw [if_pos h]
    exact mapGet_map_upd_other m k c v hkc
  · rw [if_neg h]
    cases hg : mapGet m c with
    | none =>
        rw [mapGet_append_right m _ c hg, mapGet_cons, if_neg hkc, mapGet_nil]
    | some w =>
        rw [mapGet_append_left m _ c w hg]

theorem mapGet_of_mem_nodup {m : List (α × β)} {p : α × β}
    (hnd : (m.map (fun q => q.1)).Nodup) (hp : p ∈ m) :
    mapGet m p.1 = some p.2 := by
  induction m with
  | nil => cases hp
  | cons q m ih =>
      rw [List.map_cons, List.nodup_cons] at hnd
      rcases List.mem_cons.mp hp with h | h
      · subst h
        simp [mapGet_cons]
      · by_cases hq : q.1 = p.1
        · exact absurd (hq ▸ List.mem_map.mpr ⟨p, h, rfl⟩) hnd.1
        · rw [mapGet_cons, if_neg hq]
          exact ih hnd.2 h

theorem mem_setAdd (s : List α) (x y : α) :
    y ∈ setAdd s x ↔ y ∈ s ∨ y = x := by
  unfold setAdd
  by_cases h : x ∈ s
  · simp only [if_pos h]
    constructor
    · exact Or.inl
    · rintro (hy | rfl) <;> [exact hy; exact h]
  · simp [if_neg h]

end MapLemmas

section OpLemmas

theorem unwatch_registry (s : StakingState) (h : StakingHash) :
    (unwatch s h).2.registry = s.registry := by
  unfold unwatch
  split <;> rfl

theorem unwatch_revRegistry (s : StakingState) (h : StakingHash) :
    (unwatch s h).2.revRegistry = s.revRegistry := by
  unfold unwatch
  split <;> rfl

theorem unwatch_toReload (s : StakingState) (h : StakingHash) :
    (unwatch s h).2.toReload = s.toReload := by
  unfold unwatch
  split <;> rfl

theorem unwatch_fullReload (s : StakingState) (h : StakingHash) :
    (unwatch s h).2.fullReload = s.fullReload := by
  unfold unwatch
  split <;> rfl

theorem unwatch_of_watched (s : StakingState) (h : StakingHash)
    (hw : isHashWatched s h = true) :
    unwatch s h = (true, { s with toRemove := setAdd s.toRemove h }) := by
  have hw2 : mapHas s.registry h = true := hw
  unfold unwatch
  rw [if_pos hw2]

theorem unwatch_of_not_watched (s : StakingState) (h : StakingHash)
    (hw : isHashWatched s h = false) : unwatch s h = (false, s) := by
  have hw2 : mapHas s.registry h = false := hw
  unfold unwatch
  rw [if_neg (by simp [hw2])]

theorem batchWatch_cons (d : StakingType → StakingHash → RewardAddress)
    (s : StakingState) (x : StakingHash) (hs : List StakingHash)
    (t : StakingType) :
    batchWatch d s (x :: hs) t = batchWatch d (watch d s x t) hs t := rfl

theorem batchWatch_toReload (d : StakingType → StakingHash → RewardAddress)
    (hs : List StakingHash) (t : StakingType) :
    ∀ s, (batchWatch d s hs t).toReload = s.toReload := by
  induction hs with
  | nil => intro s; rfl
  | cons x hs ih =>
      intro s
      rw [batchWatch_cons, ih]
      rfl

theorem batchWatch_toRemove (d : StakingType → StakingHash → RewardAddress)
    (hs : List StakingHash) (t : StakingType) :
    ∀ s, (batchWatch d s hs t).toRemove = s.toRemove := by
  induction hs with
  | nil => intro s; rfl
  | cons x hs ih =>
      intro s
      rw [batchWatch_cons, ih]
      rfl

theorem batchWatch_fullReload (d : StakingType → StakingHash → RewardAddress)
    (hs : List StakingHash) (t : StakingType) :
    ∀ s, (batchWatch d s hs t).fullReload = s.fullReload := by
  induction hs with
  | nil => intro s; rfl
  | cons x hs ih =>
      intro s
      rw [batchWatch_cons, ih]
      rfl

theorem batchWatch_get_of_not_mem (d : StakingType → StakingHash → RewardAddress)
    (t : StakingType) (hs : List StakingHash) :
    ∀ s h, h ∉ hs →
      mapGet (batchWatch d s hs t).registry h = mapGet s.registry h := by
  induction hs with
  | nil => intro s h _; rfl
  | cons x hs ih =>
      intro s h hnm
      have hx : x ≠ h := fun e => hnm (e ▸ List.mem_cons_self x hs)
      rw [batchWatch_cons, ih _ h (fun hh => hnm (List.mem_cons_of_mem x hh))]
      exact mapGet_mapSet_other _ x h _ hx

theorem batchWatch_get_of_mem (d : StakingType → StakingHash → RewardAddress)
    (t : StakingType) (hs : List StakingHash) :
    ∀ s h, h ∈ hs →
      mapGet (batchWatch d s hs t).registry h = some (d t h) := by
  induction hs with
  | nil => intro s h hh; cases hh
  | cons x hs ih =>
      intro s h hh
      by_cases hmem : h ∈ hs
      · rw [batchWatch_cons]
        exact ih (watch d s x t) h hmem
      · have hx : h = x := by
          rcases List.mem_cons.mp hh with e | e
          · exact e
          · exact absurd e hmem
        subst hx
        rw [batchWatch_cons, batchWatch_get_of_not_mem d t hs _ h hmem]
        exact mapGet_mapSet_self _ h _

theorem batchWatch_watched_iff (d : StakingType → StakingHash → RewardAddress)
    (t : StakingType) (hs : List StakingHash) (s : StakingState)
    (h : StakingHash) (hbase : s.registry = []) :
    isHashWatched (batchWatch d s hs t) h = true ↔ h ∈ hs := by
  by_cases hmem : h ∈ hs
  · simp [isHashWatched, mapHas_eq_isSome,
      batchWatch_get_of_mem d t hs s h hmem, hmem]
  · rw [isHashWatched, mapHas_eq_isSome,
      batchWatch_get_of_not_mem d t hs s h hmem, hbase]
    simp [mapGet_nil, hmem]

end OpLemmas

section ReloadLemmas

theorem reloadStep_registry (tip : Tip)
    (acc : List ChainStakingState × StakingState)
    (p : StakingHash × DelegRewards) :
    (reloadStep tip acc p).2.registry =
      if p.1 ∈ acc.2.toRemove then mapDelete acc.2.registry p.1
      else acc.2.registry := by
  simp only [reloadStep]
  split <;> rfl

theorem reloadStep_revRegistry (tip : Tip)
    (acc : List ChainStakingState × StakingState)
    (p : StakingHash × DelegRewards) :
    (reloadStep tip acc p).2.revRegistry =
      if p.1 ∈ acc.2.toRemove then
        mapDelete acc.2.revRegistry ((mapGet acc.2.registry p.1).getD "")
      else acc.2.revRegistry := by
  simp only [reloadStep]
  split <;> rfl

theorem reloadStep_toRemove (tip : Tip)
    (acc : List ChainStakingState × StakingState)
    (p : StakingHash × DelegRewards) :
    (reloadStep tip acc p).2.toRemove = acc.2.toRemove := by
  simp only [reloadStep]
  split <;> rfl

theorem reloadStep_fullReload (tip : Tip)
    (acc : List ChainStakingState × StakingState)
    (p : StakingHash × DelegRewards) :
    (reloadStep tip acc p).2.fullReload = acc.2.fullReload := by
  simp only [reloadStep]
  split <;> rfl

theorem foldl_reloadStep_toRemove (tip : Tip)
    (r : List (StakingHash × DelegRewards)) :
    ∀ acc, ((r.foldl (reloadStep tip) acc).2).toRemove = acc.2.toRemove := by
  induction r with
  | nil => intro acc; rfl
  | cons p r ih =>
      intro acc
      rw [List.foldl_cons, ih, reloadStep_toRemove]

theorem foldl_reloadStep_fullReload (tip : Tip)
    (r : List (StakingHash × DelegRewards)) :
    ∀ acc, ((r.foldl (reloadStep tip) acc).2).fullReload = acc.2.fullReload := by
  induction r with
  | nil => intro acc; rfl
  | cons p r ih =>
      intro acc
      rw [List.foldl_cons, ih, reloadStep_fullReload]

theorem reloadStep_registry_none (tip : Tip)
    (acc : List ChainStakingState × StakingState)
    (p : StakingHash × DelegRewards) (c : StakingHash)
    (h : mapGet acc.2.registry c = none) :
    mapGet (reloadStep tip acc p).2.registry c = none := by
  rw [reloadStep_registry]
  split
  · exact mapGet_mapDelete_none _ _ _ h
  · exact h

theorem reloadStep_registry_other (tip : Tip)
    (acc : List ChainStakingState × StakingState)
    (p : StakingHash × DelegRewards) (c : StakingHash) (hp : p.1 ≠ c) :
    mapGet (reloadStep tip acc p).2.registry c = mapGet acc.2.registry c := by
  rw [reloadStep_registry]
  split
  · exact mapGet_mapDelete_other _ _ _ hp
  · rfl

theorem reloadStep_rev_none (tip : Tip)
    (acc : List ChainStakingState × StakingState)
    (p : StakingHash × DelegRewards) (a : RewardAddress)
    (h : mapGet acc.2.revRegistry a = none) :
    mapGet (reloadStep tip acc p).2.revRegistry a = none := by
  rw [reloadStep_revRegistry]
  split
  · exact mapGet_mapDelete_none _ _ _ h
  · exact h

theorem foldl_reloadStep_registry_none (tip : Tip)
    (r : List (StakingHash × DelegRewards)) :
    ∀ acc c, mapGet acc.2.registry c = none →
      mapGet ((r.foldl (reloadStep tip) acc).2).registry c = none := by
  induction r with
  | nil => intro acc c h; exact h
  | cons p r ih =>
      intro acc c h
      rw [List.foldl_cons]
      exact ih _ c (reloadStep_registry_none tip acc p c h)

theorem foldl_reloadStep_rev_none (tip : Tip)
    (r : List (StakingHash × DelegRewards)) :
    ∀ acc a, mapGet acc.2.revRegistry a = none →
      mapGet ((r.foldl (reloadStep tip) acc).2).revRegistry a = none := by
  induction r with
  | nil => intro acc a h; exact h
  | cons p r ih =>
      intro acc a h
      rw [List.foldl_cons]
      exact ih _ a (reloadStep_rev_none tip acc p a h)

theorem foldl_reloadStep_removes_registry (tip : Tip)
    (r : List (StakingHash × DelegRewards)) :
    ∀ acc c, c ∈ acc.2.toRemove → c ∈ r.map (fun p => p.1) →
      mapGet ((r.foldl (reloadStep tip) acc).2).registry c = none := by
  induction r with
  | nil =>
      intro acc c _ hmem
      simp at hmem
  | cons p r ih =>
      intro acc c hrem hmem
      rw [List.foldl_cons]
      by_cases hp : p.1 = c
      · apply foldl_reloadStep_registry_none
        have hin : p.1 ∈ acc.2.toRemove := by rw [hp]; exact hrem
        rw [reloadStep_registry, if_pos hin, hp]
        exact mapGet_mapDelete_self _ c
      · have hmem2 : c ∈ r.map (fun p => p.1) := by
          rw [List.map_cons] at hmem
          rcases List.mem_cons.mp hmem with e | e
          · exact absurd e.symm hp
          · exact e
        apply ih
        · rw [reloadStep_toRemove]
          exact hrem
        · exact hmem2

theorem foldl_reloadStep_removes_rev (tip : Tip)
    (r : List (StakingHash × DelegRewards)) :
    ∀ acc c a, c ∈ acc.2.toRemove → c ∈ r.map (fun p => p.1) →
      mapGet acc.2.registry c = some a →
      mapGet ((r.foldl (reloadStep tip) acc).2).revRegistry a = none := by
  induction r with
  | nil =>
      intro acc c a _ hmem _
      simp at hmem
  | cons p r ih =>
      intro acc c a hrem hmem hget
      rw [List.foldl_cons]
      by_cases hp : p.1 = c
      · apply foldl_reloadStep_rev_none
        have hin : p.1 ∈ acc.2.toRemove := by rw [hp]; exact hrem
        rw [reloadStep_revRegistry, if_pos hin, hp, hget]
        exact mapGet_mapDelete_self _ a
      · have hmem2 : c ∈ r.map (fun p => p.1) := by
          rw [List.map_cons] at hmem
          rcases List.mem_cons.mp hmem with e | e
          · exact absurd e.symm hp
          · exact e
        apply ih
        · rw [reloadStep_toRemove]
          exact hrem
        · exact hmem2
        · rw [reloadStep_registry_other tip acc p c hp]
          exact hget

theorem runBatch_state_of_fetched (batch : List RewardAddress)
    (s1 : StakingState) (tip : Tip) (r : List (StakingHash × DelegRewards))
    (hf : (runBatch batch s1 tip r).fetched ≠ none) :
    (runBatch batch s1 tip r).state = (r.foldl (reloadStep tip) ([], s1)).2 := by
  unfold runBatch at hf ⊢
  by_cases hb : batch.isEmpty
  · rw [if_pos hb] at hf
    simp at hf
  · rw [if_neg hb]

theorem runBatch_callback_flag (batch : List RewardAddress)
    (s1 : StakingState) (tip : Tip) (r : List (StakingHash × DelegRewards))
    (b : List RewardAddress) (flag : Bool)
    (h : (runBatch batch s1 tip r).callback = some (b, flag)) :
    flag = s1.fullReload := by
  unfold runBatch at h
  by_cases hb : batch.isEmpty
  · rw [if_pos hb] at h
    simp at h
  · rw [if_neg hb] at h
    simp only [Option.some.injEq, Prod.mk.injEq] at h
    rw [← h.2, foldl_reloadStep_fullReload]

theorem doReload_cases (s : StakingState) (tip : Tip)
    (r : List (StakingHash × DelegRewards)) (hact : s.isActive = true)
    (hf : (doReload s tip r).fetched ≠ none) :
    (s.fullReload = true ∧
      doReload s tip r =
        runBatch (s.registry.map (fun p => p.2))
          { s with fullReload := false, toReload := [] } tip r) ∨
    (s.fullReload = false ∧
      doReload s tip r =
        runBatch (selectiveBatch s) { s with toReload := [] } tip r) := by
  unfold doReload at hf ⊢
  rw [if_neg (by simp [hact])] at hf ⊢
  by_cases hfull : s.fullReload
  · left
    exact ⟨hfull, by rw [if_pos hfull]⟩
  · right
    refine ⟨by simpa using hfull, ?_⟩
    rw [if_neg hfull] at hf ⊢
    by_cases hre : s.toReload.isEmpty
    · rw [if_pos hre] at hf
      simp at hf
    · rw [if_neg hre]

theorem doReload_state_of_fetched (s : StakingState) (tip : Tip)
    (r : List (StakingHash × DelegRewards)) (hact : s.isActive = true)
    (hf : (doReload s tip r).fetched ≠ none) :
    ∃ s1 : StakingState,
      (doReload s tip r).state = (r.foldl (reloadStep tip) ([], s1)).2 ∧
      s1.registry = s.registry ∧ s1.revRegistry = s.revRegistry ∧
      s1.toRemove = s.toRemove ∧ s1.fullReload = false := by
  rcases doReload_cases s tip r hact hf with ⟨hfull, heq⟩ | ⟨hfull, heq⟩
  · refine ⟨{ s with fullReload := false, toReload := [] }, ?_, rfl, rfl, rfl, rfl⟩
    rw [heq]
    exact runBatch_state_of_fetched _ _ _ _ (by rw [← heq]; exact hf)
  · refine ⟨{ s with toReload := [] }, ?_, rfl, rfl, rfl, hfull⟩
    rw [heq]
    exact runBatch_state_of_fetched _ _ _ _ (by rw [← heq]; exact hf)

theorem doReload_inactive (s : StakingState) (tip : Tip)
    (r : List (StakingHash × DelegRewards)) (hact : s.isActive = false) :
    doReload s tip r =
      { state := { s with toReload := [] }, warnedInactive := true,
        fetched := none, upsert := [], callback := none } := by
  unfold doReload
  rw [if_pos hact]

theorem doReload_full_fetched (s : StakingState) (tip : Tip)
    (r : List (StakingHash × DelegRewards)) (hact : s.isActive = true)
    (hfull : s.fullReload = true) (hreg : s.registry ≠ []) :
    (doReload s tip r).fetched = some (s.registry.map (fun p => p.2)) := by
  unfold doReload
  rw [if_neg (by simp [hact]), if_pos hfull]
  unfold runBatch
  rw [if_neg (by simp [List.isEmpty_iff, hreg])]

theorem doReload_callback_flag_false (s : StakingState) (tip : Tip)
    (r : List (StakingHash × DelegRewards)) (b : List RewardAddress)
    (flag : Bool) (h : (doReload s tip r).callback = some (b, flag)) :
    flag = false := by
  by_cases hact : s.isActive = true
  · unfold doReload at h
    rw [if_neg (by simp [hact])] at h
    by_cases hfull : s.fullReload
    · rw [if_pos hfull] at h
      exact runBatch_callback_flag _ _ _ _ _ _ h
    · rw [if_neg hfull] at h
      by_cases hre : s.toReload.isEmpty
      · rw [if_pos hre] at h
        simp at h
      · rw [if_neg hre] at h
        rw [runBatch_callback_flag _ _ _ _ _ _ h]
        simpa using hfull
  · rw [doReload_inactive s tip r (by simpa using hact)] at h
    simp at h

end ReloadLemmas

section MirrorLemmas

theorem mapSet_swap_comm (f : StakingHash → RewardAddress)
    (hinj : Function.Injective f) (l : List (StakingHash × RewardAddress))
    (hval : ∀ p ∈ l, p.2 = f p.1) (h : StakingHash) :
    mapSet (l.map (fun p => (p.2, p.1))) (f h) h =
      (mapSet l h (f h)).map (fun p => (p.2, p.1)) := by
  have hguard : mapHas (l.map (fun p => (p.2, p.1))) (f h) = mapHas l h := by
    induction l with
    | nil => rfl
    | cons p l ih =>
        have hv : p.2 = f p.1 := hval p (List.mem_cons_self p l)
        have ihv : ∀ q ∈ l, q.2 = f q.1 :=
          fun q hq => hval q (List.mem_cons_of_mem p hq)
        rw [List.map_cons, mapHas_cons, mapHas_cons, ih ihv]
        have hd : decide ((p.2, p.1).1 = f h) = decide (p.1 = h) := by
          rw [decide_eq_decide]
          show p.2 = f h ↔ p.1 = h
          rw [hv]
          exact ⟨fun e => hinj e, fun e => by rw [e]⟩
        rw [hd]
  unfold mapSet
  rw [hguard]
  by_cases hhas : mapHas l h
  · rw [if_pos hhas, if_pos hhas, List.map_map, List.map_map]
    apply List.map_congr_left
    intro p hp
    have hv := hval p hp
    by_cases hpc : p.1 = h
    · simp only [Function.comp]
      rw [if_pos (show p.2 = f h by rw [hv, hpc]), if_pos hpc]
    · have hne : p.2 ≠ f h := by
        rw [hv]
        exact fun e => hpc (hinj e)
      simp only [Function.comp]
      rw [if_neg hne, if_neg hpc]
  · rw [if_neg hhas, if_neg hhas, List.map_append, List.map_singleton]

theorem mapSet_val_pres (f : StakingHash → RewardAddress)
    (l : List (StakingHash × RewardAddress)) (k : StakingHash)
    (hval : ∀ p ∈ l, p.2 = f p.1) :
    ∀ p ∈ mapSet l k (f k), p.2 = f p.1 := by
  unfold mapSet
  by_cases hhas : mapHas l k
  · rw [if_pos hhas]
    intro p hp
    rcases List.mem_map.mp hp with ⟨q, hq, rfl⟩
    by_cases hqk : q.1 = k
    · simp [hqk]
    · simp only [if_neg hqk]
      exact hval q hq
  · rw [if_neg hhas]
    intro p hp
    rcases List.mem_append.mp hp with hq | hq
    · exact hval p hq
    · simp only [List.mem_singleton] at hq
      subst hq
      rfl

theorem mapSet_keys_nodup {α β : Type} [DecidableEq α]
    (l : List (α × β)) (k : α) (v : β)
    (hnd : (l.map (fun p => p.1)).Nodup) :
    ((mapSet l k v).map (fun p => p.1)).Nodup := by
  unfold mapSet
  by_cases hhas : mapHas l k
  · rw [if_pos hhas, List.map_map]
    have he : ((fun p : α × β => p.1) ∘ fun p => if p.1 = k then (k, v) else p) =
        fun p : α × β => p.1 := by
      funext p
      by_cases hp : p.1 = k <;> simp [Function.comp, hp]
    rw [he]
    exact hnd
  · rw [if_neg hhas, List.map_append]
    have hk : k ∉ l.map (fun p => p.1) := by
      intro hkm
      rcases List.mem_map.mp hkm with ⟨q, hq, he⟩
      have : mapHas l k = true := by
        unfold mapHas
        rw [List.any_eq_true]
        exact ⟨q, hq, by simp [he]⟩
      exact absurd this (by simpa using hhas)
    show (l.map (fun p => p.1) ++ [k]).Nodup
    rw [List.nodup_append]
    refine ⟨hnd, List.nodup_singleton k, ?_⟩
    intro a ha hb
    rw [List.mem_singleton] at hb
    subst hb
    exact hk ha

theorem watch_mirror (d : StakingType → StakingHash → RewardAddress)
    (t0 : StakingType) (hinj : Function.Injective (d t0)) (s : StakingState)
    (h : StakingHash) (hm : RegistryMirror d t0 s) :
    RegistryMirror d t0 (watch d s h t0) := by
  obtain ⟨hswap, hval, hnd⟩ := hm
  refine ⟨?_, ?_, ?_⟩
  · show mapSet s.revRegistry (d t0 h) h =
      (mapSet s.registry h (d t0 h)).map (fun p => (p.2, p.1))
    rw [hswap]
    exact mapSet_swap_comm (d t0) hinj s.registry hval h
  · exact mapSet_val_pres (d t0) s.registry h hval
  · exact mapSet_keys_nodup s.registry h (d t0 h) hnd

theorem mirror_of_registry_eq (d : StakingType → StakingHash → RewardAddress)
    (t0 : StakingType) (s s2 : StakingState)
    (hr : s2.registry = s.registry) (hv : s2.revRegistry = s.revRegistry)
    (hm : RegistryMirror d t0 s) : RegistryMirror d t0 s2 := by
  obtain ⟨hswap, hval, hnd⟩ := hm
  exact ⟨by rw [hr, hv, hswap], by rw [hr]; exact hval, by rw [hr]; exact hnd⟩

theorem batchWatch_mirror (d : StakingType → StakingHash → RewardAddress)
    (t0 : StakingType) (hinj : Function.Injective (d t0))
    (hs : List StakingHash) :
    ∀ s, RegistryMirror d t0 s → RegistryMirror d t0 (batchWatch d s hs t0) := by
  induction hs with
  | nil => intro s hm; exact hm
  | cons x hs ih =>
      intro s hm
      rw [batchWatch_cons]
      exact ih _ (watch_mirror d t0 hinj s x hm)

theorem applyOps_mirror (d : StakingType → StakingHash → RewardAddress)
    (t0 : StakingType) (hinj : Function.Injective (d t0)) :
    ∀ (ops : List RegOp) (s : StakingState),
      (∀ op ∈ ops, opUsesKind t0 op) → RegistryMirror d t0 s →
      RegistryMirror d t0 (applyOps d s ops) := by
  intro ops
  induction ops with
  | nil => intro s _ hm; exact hm
  | cons op ops ih =>
      intro s hops hm
      have h1 : opUsesKind t0 op := hops op (List.mem_cons_self op ops)
      have h2 : ∀ o ∈ ops, opUsesKind t0 o :=
        fun o ho => hops o (List.mem_cons_of_mem op ho)
      show RegistryMirror d t0 (applyOps d (applyOp d s op) ops)
      apply ih _ h2
      cases op with
      | watchOp h t =>
          have ht : t = t0 := h1
          subst ht
          exact watch_mirror d t hinj s h hm
      | batchWatchOp hs t =>
          have ht : t = t0 := h1
          subst ht
          exact batchWatch_mirror d t hinj hs s hm
      | unwatchOp h =>
          exact mirror_of_registry_eq d t0 s _ (unwatch_registry s h)
            (unwatch_revRegistry s h) hm

theorem inverseMaps_of_mirror (d : StakingType → StakingHash → RewardAddress)
    (t0 : StakingType) (s : StakingState)
    (hinj : Function.Injective (d t0)) (hm : RegistryMirror d t0 s) :
    InverseMaps s := by
  obtain ⟨hswap, hval, hnd⟩ := hm
  have hkeys : s.registry.map (fun p => p.2) =
      (s.registry.map (fun p => p.1)).map (d t0) := by
    rw [List.map_map]
    exact List.map_congr_left (fun p hp => hval p hp)
  have hndrev : (s.revRegistry.map (fun q => q.1)).Nodup := by
    rw [hswap, List.map_map]
    have he : ((fun q : RewardAddress × StakingHash => q.1) ∘
        fun p : StakingHash × RewardAddress => (p.2, p.1)) =
        fun p : StakingHash × RewardAddress => p.2 := rfl
    rw [he, hkeys]
    exact hnd.map hinj
  refine ⟨?_, ?_, hnd, hndrev, ?_⟩
  · intro p hp
    have hmem : (p.2, p.1) ∈ s.revRegistry := by
      rw [hswap]
      exact List.mem_map.mpr ⟨p, hp, rfl⟩
    exact mapGet_of_mem_nodup hndrev hmem
  · intro q hq
    rw [hswap] at hq
    rcases List.mem_map.mp hq with ⟨p, hp, rfl⟩
    exact mapGet_of_mem_nodup hnd hp
  · rw [hswap, List.length_map]

end MirrorLemmas

section RebootLemmas

theorem lastAction_isSome_iff (log : List ChainStaking) (h : StakingHash) :
    (lastAction log h).isSome = true ↔ h ∈ log.map (fun e => e.hash) := by
  unfold lastAction
  cases hf : log.filter (fun e => decide (e.hash = h)) with
  | nil =>
      constructor
      · intro hs
        simp at hs
      · intro hmem
        rcases List.mem_map.mp hmem with ⟨e, he, hee⟩
        have hef : e ∈ log.filter (fun x => decide (x.hash = h)) :=
          List.mem_filter.mpr ⟨he, by simp [hee]⟩
        rw [hf] at hef
        cases hef
  | cons e es =>
      constructor
      · intro _
        have hef : e ∈ log.filter (fun x => decide (x.hash = h)) := by
          rw [hf]
          exact List.mem_cons_self e es
        have hm := List.mem_filter.mp hef
        exact List.mem_map.mpr ⟨e, hm.1, by simpa using hm.2⟩
      · intro _
        rw [List.map_cons]
        rw [List.getLast?_isSome]
        simp

theorem mem_activeHashes (log : List ChainStaking) (h : StakingHash) :
    h ∈ activeHashes log ↔
      ∃ a, lastAction log h = some a ∧ a ≠ ChainStakingAction.deregister := by
  unfold activeHashes
  rw [List.mem_filter, List.mem_dedup, decide_eq_true_eq]
  constructor
  · rintro ⟨hmem, hne⟩
    have hs : (lastAction log h).isSome = true :=
      (lastAction_isSome_iff log h).mpr hmem
    obtain ⟨a, ha⟩ := Option.isSome_iff_exists.mp hs
    refine ⟨a, ha, ?_⟩
    intro he
    rw [he] at ha
    exact hne ha
  · rintro ⟨a, ha, hne⟩
    constructor
    · apply (lastAction_isSome_iff log h).mp
      rw [ha]
      rfl
    · rw [ha]
      intro he
      exact hne (Option.some.inj he)

end RebootLemmas

section ExtractorLemmas

theorem withdrawActions_foldl (s : StakingState) (slot : Slot) (txId : TxHash) :
    ∀ (ws : List (RewardAddress × Lovelace)) (acc : List ChainStaking),
      ws.foldl (fun acc w =>
        match fromAddress s w.1 with
        | some h =>
            if h = "" then acc
            else acc ++ [{ hash := h, slot := slot, txId := txId,
                           action := .withdraw w.2 }]
        | none => acc) acc =
      acc ++ ws.filterMap (specWithdrawAction s slot txId) := by
  intro ws
  induction ws with
  | nil => intro acc; simp
  | cons w ws ih =>
      intro acc
      simp only [List.foldl_cons, List.filterMap_cons]
      cases hfa : fromAddress s w.1 with
      | none => simp [specWithdrawAction, hfa, ih]
      | some h =>
          by_cases hh : h = ""
          · simp [specWithdrawAction, hfa, hh, ih]
          · simp [specWithdrawAction, hfa, hh, ih]

theorem withdrawActions_eq (s : StakingState) (slot : Slot) (txId : TxHash)
    (ws : List (RewardAddress × Lovelace)) :
    withdrawActions s slot txId ws =
      ws.filterMap (specWithdrawAction s slot txId) := by
  have h := withdrawActions_foldl s slot txId ws []
  rw [List.nil_append] at h
  exact h

theorem processCert_shape (s : StakingState) (t : List StakingHash)
    (es : List ChainStaking) (slot : Slot) (txId : TxHash)
    (cert : Certificate) :
    processCert slot txId ({ s with toRemove := t }, es) cert =
      ({ s with toRemove := (specCertDereg s cert).elim t (setAdd t) },
       es ++ (specCertAction s slot txId cert).toList) := by
  cases cert with
  | stakeKeyRegistration h =>
      by_cases hw : isHashWatched s h = true
      · have hw2 : isHashWatched { s with toRemove := t } h = true := hw
        simp [processCert, specCertAction, specCertDereg, Option.elim, hw, hw2]
      · have hw2 : isHashWatched { s with toRemove := t } h = false :=
          Bool.eq_false_iff.mpr hw
        simp [processCert, specCertAction, specCertDereg, Option.elim,
          Bool.eq_false_iff.mpr hw, hw2]
  | stakeDelegation h pool =>
      by_cases hw : isHashWatched s h = true
      · have hw2 : isHashWatched { s with toRemove := t } h = true := hw
        simp [processCert, specCertAction, specCertDereg, Option.elim, hw, hw2]
      · have hw2 : isHashWatched { s with toRemove := t } h = false :=
          Bool.eq_false_iff.mpr hw
        simp [processCert, specCertAction, specCertDereg, Option.elim,
          Bool.eq_false_iff.mpr hw, hw2]
  | stakeKeyDeregistration h =>
      by_cases hw : isHashWatched s h = true
      · have hw2 : isHashWatched { s with toRemove := t } h = true := hw
        have hu := unwatch_of_watched { s with toRemove := t } h hw2
        simp [processCert, specCertAction, specCertDereg, Option.elim, hw,
          hw2, hu]
      · have hw2 : isHashWatched { s with toRemove := t } h = false :=
          Bool.eq_false_iff.mpr hw
        simp [processCert, specCertAction, specCertDereg, Option.elim,
          Bool.eq_false_iff.mpr hw, hw2]
  | otherCert =>
      simp [processCert, specCertAction, specCertDereg, Option.elim]

theorem certs_foldl_shape (s : StakingState) (slot : Slot) (txId : TxHash) :
    ∀ (certs : List Certificate) (t : List StakingHash)
      (es : List ChainStaking),
      certs.foldl (processCert slot txId) ({ s with toRemove := t }, es) =
        ({ s with toRemove := (certs.filterMap (specCertDereg s)).foldl setAdd t },
         es ++ certs.filterMap (specCertAction s slot txId)) := by
  intro certs
  induction certs with
  | nil => intro t es; simp
  | cons c cs ih =>
      intro t es
      rw [List.foldl_cons, processCert_shape,
        ih ((specCertDereg s c).elim t (setAdd t))
          (es ++ (specCertAction s slot txId c).toList)]
      simp only [List.filterMap_cons]
      cases specCertDereg s c <;> cases specCertAction s slot txId c <;>
        simp [Option.elim, List.append_assoc]

theorem processTx_shape (s : StakingState) (t : List StakingHash)
    (es : List ChainStaking) (slot : Slot) (tx : Tx) :
    processTx ({ s with toRemove := t }, es) slot tx =
      ({ s with toRemove := (tx.certificates.filterMap (specCertDereg s)).foldl setAdd t },
       es ++ specTxActions s slot tx) := by
  have hwa : withdrawActions { s with toRemove := t } slot tx.id
      tx.withdrawals =
      tx.withdrawals.filterMap (specWithdrawAction s slot tx.id) :=
    withdrawActions_eq { s with toRemove := t } slot tx.id tx.withdrawals
  show tx.certificates.foldl (processCert slot tx.id)
      ({ s with toRemove := t },
       es ++ withdrawActions { s with toRemove := t } slot tx.id
         tx.withdrawals) = _
  rw [hwa, certs_foldl_shape s slot tx.id tx.certificates t
    (es ++ tx.withdrawals.filterMap (specWithdrawAction s slot tx.id))]
  rw [specTxActions, List.append_assoc]

theorem extractBlock_foldl_shape (s : StakingState) (slot : Slot) :
    ∀ (txs : List Tx) (t : List StakingHash) (es : List ChainStaking),
      txs.foldl (fun acc tx => processTx acc slot tx)
        ({ s with toRemove := t }, es) =
        ({ s with toRemove := (specTxsDeregs s txs).foldl setAdd t },
         es ++ specTxsActions s slot txs) := by
  intro txs
  induction txs with
  | nil => intro t es; simp [specTxsDeregs, specTxsActions]
  | cons tx txs ih =>
      intro t es
      simp only [List.foldl_cons]
      rw [processTx_shape,
        ih ((tx.certificates.filterMap (specCertDereg s)).foldl setAdd t)
          (es ++ specTxActions s slot tx)]
      simp only [specTxsDeregs, specTxsActions, List.map_cons,
        List.flatten_cons]
      rw [List.foldl_append, List.append_assoc]

theorem extractBlock_eq_spec (s : StakingState) (b : Block) :
    extractBlock s b =
      ({ s with toRemove := (specBlockDeregs s b).foldl setAdd s.toRemove },
       specBlockActions s b) := by
  have h := extractBlock_foldl_shape s b.slot b.body s.toRemove []
  rw [List.nil_append] at h
  exact h

end ExtractorLemmas

/-- C10: after `clear()` the in-memory state is fully reset for any
prior state: both registry maps are empty (so every hash and every
address is unwatched), both pending sets are empty, and the full-reload
flag is `false`.  `clearState` is a pure state function because the
source `clear()` executes no SQL (it only pauses and resumes the
executor queue around the in-memory resets), so nothing is written to
the persisted log or to the materialized state table. -/
theorem c10_clear_resets (s : StakingState) :
    (clearState s).registry = [] ∧
    (clearState s).revRegistry = [] ∧
    (clearState s).toReload = [] ∧
    (clearState s).toRemove = [] ∧
    (clearState s).fullReload = false ∧
    (∀ h, isHashWatched (clearState s) h = false) ∧
    (∀ a, isAddressWatched (clearState s) a = false) :=
  ⟨rfl, rfl, rfl, rfl, rfl, fun _ => rfl, fun _ => rfl⟩

/-- C4 counterexample: the claim says a reload execution started while
stopped leaves the full-reload flag `false`; on a stopped indexer whose
flag is set, the code's inactive branch clears only the selective set
and returns, so the flag is still `true` afterwards. -/
theorem c4_inactive_counterexample :
    c4State.isActive = false ∧
    c4State.fullReload = true ∧
    (doReload c4State none []).state.fullReload = true ∧
    (doReload c4State none []).state.toReload = [] := by
  decide

/-- C4 (amended): a reload execution that starts while the component is
stopped performs no fetch and no database write, logs the inactive
warning, and clears the selective-reload set; the full-reload flag (and
everything else in the state) is left unchanged rather than reset. -/
theorem c4_inactive_amended (s : StakingState) (tip : Tip)
    (r : List (StakingHash × DelegRewards)) (hact : s.isActive = false) :
    (doReload s tip r).fetched = none ∧
    (doReload s tip r).upsert = [] ∧
    (doReload s tip r).warnedInactive = true ∧
    (doReload s tip r).state = { s with toReload := [] } := by
  rw [doReload_inactive s tip r hact]
  exact ⟨rfl, rfl, rfl, rfl⟩

/-- Witness for C4 (amended) at the concrete stopped fixture. -/
theorem c4_inactive_amended_witness :
    (doReload c4State none []).fetched = none ∧
    (doReload c4State none []).upsert = [] ∧
    (doReload c4State none []).warnedInactive = true ∧
    (doReload c4State none []).state = { c4State with toReload := [] } :=
  c4_inactive_amended c4State none [] (by decide)

/-- C3: the `onReloaded` callback's boolean is always `false`.  The
source snapshots the flag into `wasFullReload`, resets `fullReload`
before fetching, and then passes the already-reset `fullReload` (instead
of `wasFullReload`) to the callback, so a full-reload execution reports
`fullReload: false` — contradicting the claim that the boolean is true
exactly for full reloads. -/
theorem c3_callback_full_reload_flag (s : StakingState) (tip : Tip)
    (r : List (StakingHash × DelegRewards)) (b : List RewardAddress)
    (flag : Bool) (h : (doReload s tip r).callback = some (b, flag)) :
    flag = false :=
  doReload_callback_flag_false s tip r b flag h

/-- Witness for C3 at the failing input: a full-reload execution
(`fullReload = true` on entry, non-empty batch) whose callback still
receives `false`. -/
theorem c3_callback_full_reload_flag_witness :
    c3State.fullReload = true ∧
    (doReload c3State none c3Resp).callback = some (["A"], false) ∧
    false = false :=
  ⟨by decide, by decide,
    c3_callback_full_reload_flag c3State none c3Resp ["A"] false (by decide)⟩

/-- C1 counterexample: re-watching credential `c` under a different
credential kind derives a different reward address (the derivation
distinguishes kinds, as Cardano reward addresses do), overwrites the
forward entry, and leaves the old reverse entry behind, so the two maps
are no longer exact inverses over the same key set. -/
theorem c1_registry_inverse_counterexample :
    ¬ InverseMaps (applyOps ksDerive initState
      [RegOp.watchOp "c" StakingType.Key,
       RegOp.watchOp "c" StakingType.Script]) := by
  decide

/-- C1 (amended): for every sequence of watch, batchWatch and unwatch
calls in which all watches use one single credential kind whose address
derivation is injective (the repository only ever watches `Script`
credentials), the forward and reverse maps are exact inverses over the
same key set: both round-trips hold, both key lists are duplicate-free
and the maps have equally many entries.  Re-watching a credential under
a *different* kind breaks this (see the counterexample). -/
theorem c1_registry_inverse_amended
    (derive : StakingType → StakingHash → RewardAddress) (t0 : StakingType)
    (ops : List RegOp) (hinj : Function.Injective (derive t0))
    (hops : ∀ op ∈ ops, opUsesKind t0 op) :
    InverseMaps (applyOps derive initState ops) := by
  have hm0 : RegistryMirror derive t0 initState :=
    ⟨rfl, fun p hp => absurd hp (List.not_mem_nil p), List.nodup_nil⟩
  exact inverseMaps_of_mirror derive t0 _ hinj
    (applyOps_mirror derive t0 hinj ops initState hops hm0)

/-- Witness for C1 (amended) on a concrete single-kind call sequence. -/
theorem c1_registry_inverse_amended_witness :
    InverseMaps (applyOps idDerive initState
      [RegOp.watchOp "a" StakingType.Script,
       RegOp.batchWatchOp ["b", "c"] StakingType.Script,
       RegOp.unwatchOp "a"]) :=
  c1_registry_inverse_amended idDerive StakingType.Script
    [RegOp.watchOp "a" StakingType.Script,
     RegOp.batchWatchOp ["b", "c"] StakingType.Script,
     RegOp.unwatchOp "a"]
    (fun _ _ e => e) (by decide)

/-- C2 counterexample: a reload execution whose response contains
credential `c` while `c` is in the removal set deletes `c` from the
registry maps but does NOT drop it from the removal set — the source has
no `toRemove.delete(hash)` — so the claim's "absent from the removal
set" fails. -/
theorem c2_removal_counterexample :
    cexRemState.isActive = true ∧
    "c" ∈ cexRemState.toRemove ∧
    (doReload cexRemState none cexResp).fetched ≠ none ∧
    mapGet (doReload cexRemState none cexResp).state.registry "c" = none ∧
    "c" ∈ (doReload cexRemState none cexResp).state.toRemove := by
  decide

/-- C2 (amended): for every reload execution that performs a fetch and
whose response contains an entry for a credential `c` that is in the
removal set, after the execution `c` is absent from the forward registry
map and its forward address is absent from the reverse registry map, but
`c` REMAINS in the removal set (entries are never dropped from the
removal set except by `clear()`). -/
theorem c2_removal_amended (s : StakingState) (tip : Tip)
    (r : List (StakingHash × DelegRewards)) (c : StakingHash)
    (a : RewardAddress) (hact : s.isActive = true)
    (hf : (doReload s tip r).fetched ≠ none)
    (hc : c ∈ r.map (fun p => p.1)) (hrem : c ∈ s.toRemove)
    (hget : mapGet s.registry c = some a) :
    mapGet (doReload s tip r).state.registry c = none ∧
    mapGet (doReload s tip r).state.revRegistry a = none ∧
    c ∈ (doReload s tip r).state.toRemove := by
  obtain ⟨s1, hst, hreg, hrev, hrm, _⟩ := doReload_state_of_fetched s tip r hact hf
  rw [hst]
  refine ⟨?_, ?_, ?_⟩
  · apply foldl_reloadStep_removes_registry
    · show c ∈ s1.toRemove
      rw [hrm]
      exact hrem
    · exact hc
  · apply foldl_reloadStep_removes_rev
    · show c ∈ s1.toRemove
      rw [hrm]
      exact hrem
    · exact hc
    · show mapGet s1.registry c = some a
      rw [hreg]
      exact hget
  · rw [foldl_reloadStep_toRemove]
    show c ∈ s1.toRemove
    rw [hrm]
    exact hrem

/-- Witness for C2 (amended) at the concrete removal fixture. -/
theorem c2_removal_amended_witness :
    mapGet (doReload cexRemState none cexResp).state.registry "c" = none ∧
    mapGet (doReload cexRemState none cexResp).state.revRegistry "A" = none ∧
    "c" ∈ (doReload cexRemState none cexResp).state.toRemove :=
  c2_removal_amended cexRemState none cexResp "c" "A" (by decide) (by decide)
    (by decide) (by decide) (by decide)

/-- C5: `unwatch` on a watched credential returns `true` and leaves both
registry maps (hence `fromHash` and `isHashWatched`) unchanged; a later
reload execution that fetches and whose response includes the credential
while it is marked for removal makes `isHashWatched` false; and
`unwatch` on an unknown credential returns `false` and changes no
state. -/
theorem c5_deferred_removal :
    (∀ s c, isHashWatched s c = true →
      (unwatch s c).1 = true ∧
      (unwatch s c).2.registry = s.registry ∧
      (unwatch s c).2.revRegistry = s.revRegistry ∧
      fromHash (unwatch s c).2 c = fromHash s c ∧
      isHashWatched (unwatch s c).2 c = true) ∧
    (∀ s tip r c, s.isActive = true → (doReload s tip r).fetched ≠ none →
      c ∈ r.map (fun p => p.1) → c ∈ s.toRemove →
      isHashWatched (doReload s tip r).state c = false) ∧
    (∀ s c, isHashWatched s c = false → unwatch s c = (false, s)) := by
  refine ⟨?_, ?_, ?_⟩
  · intro s c hw
    rw [unwatch_of_watched s c hw]
    exact ⟨rfl, rfl, rfl, rfl, hw⟩
  · intro s tip r c hact hf hc hrem
    obtain ⟨s1, hst, hreg, _, hrm, _⟩ := doReload_state_of_fetched s tip r hact hf
    rw [hst, isHashWatched, mapHas_eq_isSome]
    rw [foldl_reloadStep_removes_registry tip r ([], s1) c
      (by show c ∈ s1.toRemove; rw [hrm]; exact hrem) hc]
    rfl
  · intro s c hw
    exact unwatch_of_not_watched s c hw

/-- Witness for C5 at the concrete watch fixture. -/
theorem c5_deferred_removal_witness :
    ((unwatch c5State "h").1 = true ∧
      (unwatch c5State "h").2.registry = c5State.registry ∧
      (unwatch c5State "h").2.revRegistry = c5State.revRegistry ∧
      fromHash (unwatch c5State "h").2 "h" = fromHash c5State "h" ∧
      isHashWatched (unwatch c5State "h").2 "h" = true) ∧
    isHashWatched (doReload c5RemState none c5Resp).state "h" = false ∧
    unwatch c5State "z" = (false, c5State) :=
  ⟨c5_deferred_removal.1 c5State "h" (by decide),
   c5_deferred_removal.2.1 c5RemState none c5Resp "h" (by decide) (by decide)
     (by decide) (by decide),
   c5_deferred_removal.2.2 c5State "z" (by decide)⟩

/-- C6: once the full-reload flag is set, any further `reload` call
(with `null` or with a concrete list) leaves the state unchanged and
does not even fire the debounce; the next executed batch is every
reward address currently in the registry; in particular `reload(null)`
followed by `reload([c])` still yields the full batch. -/
theorem c6_full_reload_absorption :
    (∀ s hs, s.fullReload = true → reload s hs = (s, false)) ∧
    (∀ s tip r, s.isActive = true → s.fullReload = true → s.registry ≠ [] →
      (doReload s tip r).fetched = some (s.registry.map (fun p => p.2))) ∧
    (∀ s c tip r, s.fullReload = false → s.isActive = true →
      s.registry ≠ [] →
      reload (reload s none).1 (some [c]) = ((reload s none).1, false) ∧
      (doReload (reload s none).1 tip r).fetched =
        some (s.registry.map (fun p => p.2))) := by
  refine ⟨?_, ?_, ?_⟩
  · intro s hs hfull
    unfold reload
    rw [if_pos hfull]
  · intro s tip r hact hfull hreg
    exact doReload_full_fetched s tip r hact hfull hreg
  · intro s c tip r hfull hact hreg
    have h1 : (reload s none).1 = { s with fullReload := true } := by
      unfold reload
      rw [if_neg (by simp [hfull])]
    constructor
    · rw [h1]
      unfold reload
      rw [if_pos rfl]
    · rw [h1]
      exact doReload_full_fetched { s with fullReload := true } tip r hact rfl hreg

/-- Witness for C6 at the concrete fixtures. -/
theorem c6_full_reload_absorption_witness :
    reload c6State (some ["x"]) = (c6State, false) ∧
    (doReload c6State none []).fetched =
      some (c6State.registry.map (fun p => p.2)) ∧
    (reload (reload c6BaseState none).1 (some ["h"]) =
        ((reload c6BaseState none).1, false) ∧
      (doReload (reload c6BaseState none).1 none []).fetched =
        some (c6BaseState.registry.map (fun p => p.2))) :=
  ⟨c6_full_reload_absorption.1 c6State (some ["x"]) (by decide),
   c6_full_reload_absorption.2.1 c6State none [] (by decide) (by decide)
     (by decide),
   c6_full_reload_absorption.2.2 c6BaseState "h" none [] (by decide)
     (by decide) (by decide)⟩

/-- C7: the block hook's effects happen if and only if at least one
action was extracted, and in order: `storeBlock` first (when supplied),
then one batched log append of all actions, then — only when in sync —
the hand-off of the affected hashes to `reload`.  Concretely, a block at
slot 1000 with a stake-registration certificate for already-watched `H1`
yields exactly the action `{H1, register, null, 1000, tx0}`, one
appended batch, a `reload(["H1"])` hand-off, and no new watch (the
registry is unchanged). -/
theorem c7_block_effects :
    (∀ (s : StakingState) (b : Block) (inSync hasStore : Bool),
      ((afterBlock s b inSync hasStore).2 = [] ↔ (extractBlock s b).2 = []) ∧
      (afterBlock s b inSync hasStore).2 =
        (if (extractBlock s b).2.isEmpty then []
         else
           (if hasStore then [BlockEffect.storeBlockE] else []) ++
             [BlockEffect.appendLogE (extractBlock s b).2] ++
             (if inSync then
               [BlockEffect.reloadE
                 ((extractBlock s b).2.map (fun e => e.hash))]
              else []))) ∧
    afterBlock c7State c7Block true true =
      ({ c7State with toReload := ["H1"] },
       [BlockEffect.storeBlockE, BlockEffect.appendLogE [c7Event],
        BlockEffect.reloadE ["H1"]]) ∧
    (afterBlock c7State c7Block true true).1.registry = c7State.registry := by
  refine ⟨?_, by decide, by decide⟩
  intro s b inSync hasStore
  constructor
  · by_cases he : (extractBlock s b).2.isEmpty <;>
      simp [afterBlock, he, List.isEmpty_iff] <;>
      simpa [List.isEmpty_iff] using he
  · by_cases he : (extractBlock s b).2.isEmpty <;> simp [afterBlock, he]

/-- C8: general characterization of the event extractor over EVERY
block.  For any state and any block — any number of transactions, each
with any withdrawals and certificates — `extractBlock` emits exactly
the actions prescribed by the claim's per-entry rules
(`specWithdrawAction`: a `withdraw` action with the amount for each
withdrawal whose address resolves through the registry to a watched
truthy credential; `specCertAction`: `register`, `delegate` with the
pool, and `deregister` for certificates of watched credentials; nothing
for unwatched or unknown credentials or unrelated certificates), in
block order, and its only state effect is the immediate unwatch of each
watched deregistered credential (the removal set grows by exactly those
hashes, in order); in particular both registry maps are untouched, so
unwatched entries cause no error and no change.  The concrete mixed
block exercises two transactions, resolving and non-resolving
withdrawals, a deregistration followed by a registration of the same
credential (still emitted, since deregistration only marks for
removal), an unwatched delegation and an unrelated certificate. -/
theorem c8_extractor_cases :
    (∀ (s : StakingState) (b : Block),
      extractBlock s b =
        ({ s with toRemove := (specBlockDeregs s b).foldl setAdd s.toRemove },
         specBlockActions s b)) ∧
    (∀ (s : StakingState) (b : Block),
      (extractBlock s b).1.registry = s.registry ∧
      (extractBlock s b).1.revRegistry = s.revRegistry ∧
      (extractBlock s b).2 = specBlockActions s b) ∧
    extractBlock c8State c8MixedBlock =
      ({ c8State with toRemove := ["h"] },
       [⟨"h", 9, "t1", ChainStakingActionWithPayload.withdraw 7⟩,
        ⟨"h", 9, "t1", ChainStakingActionWithPayload.deregister⟩,
        ⟨"h", 9, "t2", ChainStakingActionWithPayload.register⟩]) := by
  refine ⟨extractBlock_eq_spec, ?_, by decide⟩
  intro s b
  rw [extractBlock_eq_spec s b]
  exact ⟨rfl, rfl, rfl⟩

/-- C9: `reboot()` reconstructs the watch set from the persisted log:
after it, a hash is watched exactly when its most recent logged action
exists and is not `deregister`; every recovered hash is watched with
kind `Script` (its address is the `Script` derivation); and reboot
itself neither sets the full-reload flag nor leaves any pending
selective reload.  Concretely, with log `[X register, X delegate,
X withdraw, Y register, Y deregister]`, after reboot `X` is watched and
`Y` is not. -/
theorem c9_reboot_recovery :
    (∀ (d : StakingType → StakingHash → RewardAddress) (s : StakingState)
        (log : List ChainStaking) (h : StakingHash),
      (isHashWatched (reboot d s log) h = true ↔
        ∃ a, lastAction log h = some a ∧
          a ≠ ChainStakingAction.deregister) ∧
      (isHashWatched (reboot d s log) h = true →
        fromHash (reboot d s log) h = some (d StakingType.Script h)) ∧
      (reboot d s log).fullReload = false ∧
      (reboot d s log).toReload = []) ∧
    (isHashWatched (reboot idDerive initState c9Log) "X" = true ∧
     isHashWatched (reboot idDerive initState c9Log) "Y" = false) := by
  refine ⟨?_, by decide⟩
  intro d s log h
  have hbase : (clearState s).registry = [] := rfl
  have hiff := batchWatch_watched_iff d StakingType.Script (activeHashes log)
    (clearState s) h hbase
  refine ⟨?_, ?_, ?_, ?_⟩
  · show isHashWatched (batchWatch d (clearState s) (activeHashes log)
      StakingType.Script) h = true ↔ _
    rw [hiff]
    exact mem_activeHashes log h
  · intro hw
    have hmem : h ∈ activeHashes log := hiff.mp hw
    show fromHash (batchWatch d (clearState s) (activeHashes log)
      StakingType.Script) h = _
    unfold fromHash
    exact batchWatch_get_of_mem d StakingType.Script (activeHashes log)
      (clearState s) h hmem
  · show (batchWatch d (clearState s) (activeHashes log)
      StakingType.Script).fullReload = false
    rw [batchWatch_fullReload]
    rfl
  · show (batchWatch d (clearState s) (activeHashes log)
      StakingType.Script).toReload = []
    rw [batchWatch_toReload]
    rfl

/-- Witness for C9: the recovered `X` resolves with the `Script`
derivation and reboot leaves no pending reload state. -/
theorem c9_reboot_recovery_witness :
    fromHash (reboot idDerive initState c9Log) "X" = some "X" ∧
    (reboot idDerive initState c9Log).fullReload = false ∧
    (reboot idDerive initState c9Log).toReload = [] :=
  ⟨(c9_reboot_recovery.1 idDerive initState c9Log "X").2.1 (by decide),
   (c9_reboot_recovery.1 idDerive initState c9Log "X").2.2.1,
   (c9_reboot_recovery.1 idDerive initState c9Log "X").2.2.2⟩

end Staking
